import Mathlib

/-!
Shallow embedding of the `imghash` crate (perceptual image hashing).

The embedding models:
* `src/imghash.rs` — the `ImageHash` bit-matrix type with its constructors
  (`new`, `from_bool_iter`), the hexadecimal codec (`encode`, `decode`) and
  the Hamming `distance`.
* `src/median.rs` — the `MedianHasher` bit derivation from converted pixels.
* `src/difference.rs` — the `DifferenceHasher` bit derivation.
* `src/convert.rs` — the per-pixel grayscale conversion.
* `src/math.rs` — the 1D DCT-II (`dct2`).

Conventions: Rust `panic!` (and out-of-bounds accesses / `unwrap` of `None`)
are modelled as `Option.none`; recoverable `Result::Err` values keep their
message strings through `Except String`.  Machine integers are modelled as
`Nat` (no arithmetic here can overflow 64-bit `usize` for `u32`-sized
dimensions).  Rust `&str` values are modelled as `List Char`, with the
byte-oriented `str::len` modelled by summing UTF-8 sizes.  The `f32`
arithmetic of the grayscale step is modelled exactly (IEEE-754 binary32
round-to-nearest-even on values represented as integer multiples of
`2^(-149)`); the `f64` arithmetic of the DCT is modelled over `ℝ`.
-/

namespace ImgHash

/-- Value of a bit list read most-significant-bit first, as accumulated by
`BitBox::<u8, Msb0>::as_raw_slice` in `encode` (`src/imghash.rs`). -/
def byteOfBits (l : List Bool) : Nat :=
  l.foldl (fun acc b => 2 * acc + (if b then 1 else 0)) 0

/-- The 8 bits of a byte, most-significant first (the `Msb0` view used by
`decode` via `data.view_bits::<Msb0>()`). -/
def byteToBits (b : Nat) : List Bool :=
  [b / 128 % 2 = 1, b / 64 % 2 = 1, b / 32 % 2 = 1, b / 16 % 2 = 1,
   b / 8 % 2 = 1, b / 4 % 2 = 1, b / 2 % 2 = 1, b % 2 = 1]

/-- Fuel-driven recursion behind `chunksList`; the fuel is an upper bound on
the list length, so the `0, _ :: _` branch is never reached from
`chunksList`. -/
def chunksGo (n : Nat) : Nat → List α → List (List α)
  | _, [] => []
  | 0, _ :: _ => []
  | fuel + 1, a :: t =>
    if n = 0 then []
    else (a :: t).take n :: chunksGo n fuel ((a :: t).drop n)

/-- `slice::chunks(n)`: split a list into consecutive chunks of `n` elements,
the last chunk possibly shorter.  (`n = 0` panics in Rust; we return `[]`,
and no call site passes `0`.) -/
def chunksList (n : Nat) (l : List α) : List (List α) :=
  chunksGo n l.length l

/-- A trailing partial byte is filled with `false` bits
(`fill_uninitialized(false)` in `encode`). -/
def padTo8 (c : List Bool) : List Bool :=
  c ++ List.replicate (8 - c.length) false

/-- The raw bytes of a `BitBox<u8, Msb0>` holding the given bits. -/
def bitsToBytes (l : List Bool) : List Nat :=
  (chunksList 8 l).map (fun c => byteOfBits (padTo8 c))

/-- The bit sequence of a byte list, each byte viewed MSB-first. -/
def bytesToBits (bs : List Nat) : List Bool :=
  bs.flatMap byteToBits

/-- `ImageHash` (`src/imghash.rs`): a bit matrix stored row-major together
with its shape.  The derived Rust `PartialEq` is field-wise equality, which
is the structural equality of this structure. -/
structure ImageHash where
  data : List Bool
  width : Nat
  height : Nat
deriving DecidableEq, Repr

deriving instance DecidableEq for Except

/-- `ImageHash::from_bool_iter`: builds a hash from a bit stream.  The Rust
code panics when the stream is longer than `width*height` (out-of-bounds
`data.set`) or shorter (explicit length check); both are `none` here. -/
def fromBoolIter (l : List Bool) (width height : Nat) : Option ImageHash :=
  if l.length = width * height then some ⟨l, width, height⟩ else none

/-- `ImageHash::new`: builds a hash from a row-major matrix, panicking
(`none`) when the matrix or its first row is empty or rows have unequal
lengths. -/
def newHash (matrix : List (List Bool)) : Option ImageHash :=
  match matrix with
  | [] => none
  | r0 :: _ =>
    if r0.length = 0 then none
    else if matrix.all (fun row => row.length = r0.length) then
      fromBoolIter matrix.flatten r0.length matrix.length
    else none

/-- `ImageHash::shape`: `(height, width)`. -/
def shape (hsh : ImageHash) : Nat × Nat :=
  (hsh.height, hsh.width)

/-- `ImageHash::distance`: Hamming distance, an error on shape mismatch. -/
def distance (a b : ImageHash) : Except String Nat :=
  if shape a ≠ shape b then
    .error "Cannot compute distance of hashes with different sizes"
  else
    .ok (((a.data.zip b.data).take (a.width * a.height)).countP
      (fun p => p.1 != p.2))

/-- One lowercase hex digit (`{:x}` formatting), for values below 16. -/
def hexChar (n : Nat) : Char :=
  Char.ofNat (if n < 10 then 48 + n else 87 + n)

/-- `write!("{:02x}", b)`: two lowercase hex digits (for `b < 256`). -/
def byteHex2 (b : Nat) : List Char :=
  [hexChar (b / 16), hexChar (b % 16)]

/-- `write!("{:01x}", b)`: minimum-width-1 lowercase hex (for `b < 256`). -/
def byteHex1 (b : Nat) : List Char :=
  if b < 16 then [hexChar b] else byteHex2 b

/-- `ImageHash::encode` (`src/imghash.rs`): front-pads the bits to a whole
number of bytes, prints each byte as two lowercase hex digits, dropping the
leading `'0'` when the number of nibbles is odd.  Panics (`none`) iff
`width == 0 && height == 0`. -/
def encode (hsh : ImageHash) : Option (List Char) :=
  if hsh.width = 0 ∧ hsh.height = 0 then none
  else
    let length := hsh.width * hsh.height
    let size := (length + 7) / 8
    let padding := size * 8 - length
    let nibbles := (length + 3) / 4
    let odd := nibbles % 2 = 1
    let bytes := bitsToBytes (List.replicate padding false ++ hsh.data)
    some (match bytes with
      | [] => []
      | b :: rest =>
        (if odd then byteHex1 b else byteHex2 b) ++ rest.flatMap byteHex2)

/-- `char::to_digit(16)`: `0-9`, `a-f`, `A-F` (case-insensitive). -/
def toDigit16 (c : Char) : Option Nat :=
  if 48 ≤ c.toNat ∧ c.toNat ≤ 57 then some (c.toNat - 48)
  else if 97 ≤ c.toNat ∧ c.toNat ≤ 102 then some (c.toNat - 87)
  else if 65 ≤ c.toNat ∧ c.toNat ≤ 70 then some (c.toNat - 55)
  else none

/-- The byte-reading loop of `ImageHash::decode`: reads `2*k` characters as
`k` bytes.  An exhausted iterator (`.next().unwrap()` on `None`) is a panic,
modelled as `none`; an invalid digit is the recoverable decode error. -/
def readBytes : Nat → List Char → Option (Except String (List Nat))
  | 0, _ => some (.ok [])
  | _ + 1, [] => none
  | k + 1, c1 :: cs1 =>
    match toDigit16 c1 with
    | none => some (.error "invalid digit found in string")
    | some hi =>
      match cs1 with
      | [] => none
      | c2 :: cs2 =>
        match toDigit16 c2 with
        | none => some (.error "invalid digit found in string")
        | some lo =>
          match readBytes k cs2 with
          | none => none
          | some (.error e) => some (.error e)
          | some (.ok bs) => some (.ok ((hi * 16 + lo) :: bs))

/-- Rust `str::len` is a byte length; a model string is a `List Char`, so we
sum the UTF-8 sizes. -/
def byteLen (s : List Char) : Nat :=
  (s.map Char.utf8Size).sum

/-- `ImageHash::decode` (`src/imghash.rs`).  The outer `Option` is `none`
exactly when the Rust code would panic (iterator `unwrap`s, bit-slice
indexing); `Except` carries the recoverable validation errors. -/
def decode (s : List Char) (width height : Nat) :
    Option (Except String ImageHash) :=
  let length := width * height
  if length = 0 then some (.error "Width or height cannot be 0")
  else if byteLen s = 0 then some (.error "String is empty")
  else
    let size := (length + 7) / 8
    let nibbles := (length + 3) / 4
    let padding := size * 8 - length
    if byteLen s ≠ nibbles then
      some (.error "String is too short or too long for the specified size")
    else
      let cs := (if nibbles % 2 = 1 then [Char.ofNat 48] else []) ++ s
      match readBytes size cs with
      | none => none
      | some (.error e) => some (.error e)
      | some (.ok bytes) =>
        let bits := bytesToBits bytes
        if padding ≤ bits.length then
          some (.ok ⟨bits.drop padding, width, height⟩)
        else none

/-- `MedianHasher::hash_from_img` (`src/median.rs`), modelled from the point
where the converted grayscale image's bytes are in hand: the threshold is
`*values.select_nth_unstable(len / 2).1`, i.e. the element that sorted order
places at index `len / 2`; panics (`none`) on an empty pixel buffer. -/
def medianHashFromPixels (pixels : List Nat) (width height : Nat) :
    Option ImageHash :=
  match pixels with
  | [] => none
  | _ :: _ =>
    let median := (List.insertionSort (· ≤ ·) pixels).getD (pixels.length / 2) 0
    fromBoolIter (pixels.map (fun p => decide (p > median))) width height

/-- Modelled from the spec: "Compute the median of all pixel intensities
(standard median: average of two middle elements for even counts, else the
middle element)" and "Bit `i` is `true` iff pixel `i`'s intensity is strictly
greater than the median."  For an even count the comparison
`p > (s₁ + s₂) / 2` against the exact (possibly half-integer) average is
written integrally as `2 * p > s₁ + s₂`. -/
def medianHashSpecFromPixels (pixels : List Nat) (width height : Nat) :
    Option ImageHash :=
  match pixels with
  | [] => none
  | _ :: _ =>
    let sorted := List.insertionSort (· ≤ ·) pixels
    let n := pixels.length
    let bit : Nat → Bool := fun p =>
      if n % 2 = 0 then decide (2 * p > sorted.getD (n / 2 - 1) 0 + sorted.getD (n / 2) 0)
      else decide (p > sorted.getD (n / 2) 0)
    fromBoolIter (pixels.map bit) width height

/-- `DifferenceHasher::hash_from_img` (`src/difference.rs`), modelled from
the converted image's bytes: rows of `width + 1` pixels, one bit per adjacent
horizontal pair (`windows(2)`), `true` iff the left pixel is strictly
smaller. -/
def differenceHashFromPixels (pixels : List Nat) (width height : Nat) :
    Option ImageHash :=
  let rows := chunksList (width + 1) pixels
  fromBoolIter
    (rows.flatMap (fun row =>
      (row.zip (row.drop 1)).map (fun p => decide (p.1 < p.2))))
    width height

/-- Modelled from the spec: the difference-hash bit layout — for each of
the `height` rows the bit at column `j < width` is `true` iff
`pixel[j] < pixel[j+1]` in that row of the `(width+1)`-pixel-wide converted
image, `width*height` bits in row-major order. -/
def differenceBitsSpec (pixels : List Nat) (width height : Nat) : List Bool :=
  (List.range height).flatMap (fun i =>
    (List.range width).map (fun j =>
      decide (pixels.getD (i * (width + 1) + j) 0
        < pixels.getD (i * (width + 1) + j + 1) 0)))

/-- `ColorSpace` (`src/convert.rs`). -/
inductive ColorSpace where
  | REC709
  | REC601
deriving DecidableEq, Repr

/-- The decimal values of the luma coefficient literals in
`Convert::grayscale` (the `f32` literals denote the binary32 values nearest
to these rationals); used by the spec-side `lumaSpec` model. -/
def coefficients : ColorSpace → ℚ × ℚ × ℚ
  | .REC709 => (0.2126, 0.7152, 0.0722)
  | .REC601 => (0.299, 0.587, 0.114)

/-- Fuel-driven `⌊log₂ n⌋` (fuel bounds the bit length; every number this
file computes with is far below `2^512`). -/
def log2Go : Nat → Nat → Nat
  | 0, _ => 0
  | fuel + 1, n => if n ≤ 1 then 0 else log2Go fuel (n / 2) + 1

def log2Nat (n : Nat) : Nat := log2Go 512 n

/-- `⌊log₂ (a/b)⌋` for `a, b ≥ 1`: the bit-length estimate, corrected by one
exact comparison. -/
def ilog2Rat (a b : Nat) : Int :=
  let e0 : Int := (log2Nat a : Int) - (log2Nat b : Int)
  if (if 0 ≤ e0 then b * 2 ^ e0.toNat ≤ a else b ≤ a * 2 ^ (-e0).toNat)
  then e0 else e0 - 1

/-- Round the non-negative exact value `a / b` (`b ≥ 1`) to the nearest
IEEE-754 binary32 value, ties to even, returned as an integer multiple of
`2^(-149)` (every finite non-negative binary32 value is one).  The unit in
the last place has exponent `max (-149) (⌊log₂ (a/b)⌋ - 23)`; results here
stay far below the overflow threshold, and a significand that rounds up to
`2^24` is still represented exactly. -/
def roundF32 (a b : Nat) : Nat :=
  if a = 0 then 0
  else
    let t := (max (-149 : Int) (ilog2Rat a b - 23) + 149).toNat
    let num := a * 2 ^ 149
    let den := b * 2 ^ t
    let q := num / den
    let r := num % den
    (if 2 * r > den then q + 1
     else if 2 * r < den then q
     else if q % 2 = 0 then q else q + 1) * 2 ^ t

/-- The binary32 values of the coefficient literals of `Convert::grayscale`,
as multiples of `2^(-149)`. -/
def coeffF32 : ColorSpace → Nat × Nat × Nat
  | .REC709 => (roundF32 2126 10000, roundF32 7152 10000, roundF32 722 10000)
  | .REC601 => (roundF32 299 1000, roundF32 587 1000, roundF32 114 1000)

/-- IEEE-754 binary32 multiplication on `2^(-149)`-scaled values: the exact
product `x·y·2^(-298)`, correctly rounded. -/
def f32Mul (x y : Nat) : Nat := roundF32 (x * y) (2 ^ 149 * 2 ^ 149)

/-- IEEE-754 binary32 addition on `2^(-149)`-scaled values: the exact sum,
correctly rounded. -/
def f32Add (x y : Nat) : Nat := roundF32 (x + y) (2 ^ 149)

/-- The per-pixel luma of `Convert::grayscale`:
`(c_r * r + c_g * g + c_b * b) as u8` evaluated in `f32` — binary32
literals, binary32 products, left-to-right binary32 sums (`u8` channel
values convert to `f32` exactly).  The `as u8` cast truncates toward zero
and saturates at 255; the values are non-negative, so that is
`min 255 (⌊·⌋)`, i.e. `min 255 (· / 2^149)` on the scaled sum. -/
def lumaOf (space : ColorSpace) (r g b : Nat) : Nat :=
  let c := coeffF32 space
  let sum := f32Add (f32Add (f32Mul c.1 (r * 2 ^ 149)) (f32Mul c.2.1 (g * 2 ^ 149)))
    (f32Mul c.2.2 (b * 2 ^ 149))
  min 255 (sum / 2 ^ 149)

/-- Modelled from the spec: "for every pixel,
`luma = round(c_r*R + c_g*G + c_b*B)` using the selected coefficients". -/
def lumaSpec (space : ColorSpace) (r g b : Nat) : Nat :=
  let c := coefficients space
  min 255 (round (c.1 * r + c.2.1 * g + c.2.2 * b)).toNat

/-- An input image as `Convert::grayscale` reads it: RGBA pixels indexed by
`(x, y)`. -/
structure RgbaImage where
  width : Nat
  height : Nat
  pix : Nat → Nat → Nat × Nat × Nat × Nat

/-- A single-channel 8-bit image. -/
structure GrayImage where
  width : Nat
  height : Nat
  pix : Nat → Nat → Nat

/-- `Convert::grayscale` (`src/convert.rs`): a same-dimensions buffer whose
pixel `(x, y)` is the luma of the input pixel `(x, y)` (alpha ignored).  The
`rayon` parallel iteration is a positional per-pixel map. -/
def grayscale (img : RgbaImage) (space : ColorSpace) : GrayImage :=
  { width := img.width
    height := img.height
    pix := fun x y =>
      let p := img.pix x y
      lumaOf space p.1 p.2.1 p.2.2.1 }

/-- Modelled from the spec: the reference hex format — the row-major bits
are zero-padded at the front to a multiple of 4, and each 4-bit group is
rendered as one lowercase hex digit, most-significant-bit first within the
group, most-significant group first overall. -/
def specHexEncode (bits : List Bool) : List Char :=
  (chunksList 4 (List.replicate ((4 - bits.length % 4) % 4) false ++ bits)).map
    (fun c => hexChar (byteOfBits c))

/-- `dct2` (`src/math.rs`): the unnormalized DCT-II,
`X[k] = 2 * Σ_i x[i] * cos(π k (2i+1) / (2n))`, empty for empty input.  The
`f64` arithmetic is modelled over `ℝ`. -/
noncomputable def dct2 (input : List ℝ) : List ℝ :=
  if input.isEmpty then []
  else
    let n := input.length
    (List.range n).map (fun (k : Nat) =>
      2 * ∑ i ∈ Finset.range n,
        input.getD i 0 * Real.cos (Real.pi * k * (2 * i + 1) / (2 * n)))

example : encode ⟨[false, false, true, false,
                   false, true, false, false,
                   true, true, true, true,
                   false, false, false, false], 4, 4⟩
    = some ['2', '4', 'f', '0'] := by decide

example : encode ⟨[true], 1, 1⟩ = some ['1'] := by decide

example : decode ['2', '4', 'f', '0'] 4 4
    = some (.ok ⟨[false, false, true, false,
                  false, true, false, false,
                  true, true, true, true,
                  false, false, false, false], 4, 4⟩) := by decide

example : decode ['6', 'a', '3', 'e', '1'] 5 4
    = some (.ok ⟨[false, true, true, false, true,
                  false, true, false, false, false,
                  true, true, true, true, true,
                  false, false, false, false, true], 5, 4⟩) := by decide

example : decode ['3', '5', '1', 'f'] 5 3
    = some (.ok ⟨[false, true, true, false, true,
                  false, true, false, false, false,
                  true, true, true, true, true], 5, 3⟩) := by decide

example : decode ['A', 'B'] 2 5
    = some (.error "String is too short or too long for the specified size") := by
  decide

example : decode ['!'] 2 2
    = some (.error "invalid digit found in string") := by decide

example : decode [] 2 2 = some (.error "String is empty") := by decide

example : decode ['!'] 2 0
    = some (.error "Width or height cannot be 0") := by decide

example :
    coeffF32 ColorSpace.REC601
        = (10032775 * 2 ^ 124, 4924113 * 2 ^ 126, 15300821 * 2 ^ 122) ∧
      coeffF32 ColorSpace.REC709
        = (891709 * 2 ^ 127, 11999065 * 2 ^ 125, 1211315 * 2 ^ 125) := by
  decide

set_option maxRecDepth 8000 in
example :
    lumaOf ColorSpace.REC601 0 0 5 = 0 ∧
      lumaOf ColorSpace.REC601 8 80 32 = 52 ∧
      lumaOf ColorSpace.REC709 13 13 13 = 12 ∧
      lumaOf ColorSpace.REC601 255 255 255 = 255 ∧
      lumaOf ColorSpace.REC709 255 255 255 = 255 ∧
      lumaOf ColorSpace.REC601 1 2 3 = 1 ∧
      lumaOf ColorSpace.REC709 200 100 50 = 117 ∧
      lumaOf ColorSpace.REC601 123 45 67 = 70 ∧
      lumaOf ColorSpace.REC709 7 250 3 = 180 ∧
      lumaOf ColorSpace.REC601 99 180 240 = 162 := by
  decide


/-! ### Supporting lemmas -/

theorem chunksGo_congr (n : Nat) :
    ∀ fuel₁ fuel₂ (l : List α), l.length ≤ fuel₁ → l.length ≤ fuel₂ →
      chunksGo n fuel₁ l = chunksGo n fuel₂ l := by
  intro fuel₁
  induction fuel₁ with
  | zero =>
    intro fuel₂ l h₁ _
    have : l = [] := List.eq_nil_of_length_eq_zero (Nat.le_zero.mp h₁)
    subst this
    cases fuel₂ <;> rfl
  | succ f ih =>
    intro fuel₂ l h₁ h₂
    match l, fuel₂ with
    | [], _ => cases fuel₂ <;> simp [chunksGo]
    | a :: t, 0 => simp at h₂
    | a :: t, f' + 1 =>
      simp only [chunksGo]
      by_cases hn : n = 0
      · simp [hn]
      · simp only [hn, if_false]
        congr 1
        apply ih
        · simp only [List.length_drop, List.length_cons] at *
          omega
        · simp only [List.length_drop, List.length_cons] at *
          omega

theorem chunksList_nil (n : Nat) : chunksList n ([] : List α) = [] := rfl

theorem chunksList_cons (n : Nat) (hn : n ≠ 0) (l : List α) (hl : l ≠ []) :
    chunksList n l = l.take n :: chunksList n (l.drop n) := by
  match l with
  | [] => exact absurd rfl hl
  | a :: t =>
    show chunksGo n (t.length + 1) (a :: t) = _
    simp only [chunksGo, hn, if_false]
    congr 1
    apply chunksGo_congr
    · simp only [List.length_drop, List.length_cons]
      omega
    · exact Nat.le_refl _

theorem chunksList_length (n k : Nat) (hn : n ≠ 0) (l : List α)
    (hl : l.length = n * k) : (chunksList n l).length = k := by
  induction k generalizing l with
  | zero =>
    have : l = [] := List.eq_nil_of_length_eq_zero (by omega)
    subst this; rfl
  | succ k ih =>
    have hne : l ≠ [] := by
      intro h
      rw [h] at hl
      simp only [List.length_nil] at hl
      rcases Nat.mul_eq_zero.mp hl.symm with h0 | h0
      · exact hn h0
      · omega
    have hdrop : (l.drop n).length = n * k := by
      rw [List.length_drop, hl, Nat.mul_succ, Nat.add_sub_cancel]
    rw [chunksList_cons n hn l hne]
    simp only [List.length_cons]
    rw [ih (l.drop n) hdrop]

theorem byteOfBits_foldl (l : List Bool) (acc : Nat) :
    l.foldl (fun acc b => 2 * acc + (if b then 1 else 0)) acc
      = acc * 2 ^ l.length + byteOfBits l := by
  induction l generalizing acc with
  | nil => simp [byteOfBits]
  | cons b t ih =>
    simp only [List.foldl_cons, byteOfBits, List.length_cons]
    rw [ih (2 * acc + (if b then 1 else 0)), ih (2 * 0 + (if b then 1 else 0))]
    ring

theorem byteOfBits_cons (b : Bool) (t : List Bool) :
    byteOfBits (b :: t) = (if b then 1 else 0) * 2 ^ t.length + byteOfBits t := by
  show (b :: t).foldl _ 0 = _
  rw [List.foldl_cons, byteOfBits_foldl]
  ring_nf

theorem byteOfBits_append (l₁ l₂ : List Bool) :
    byteOfBits (l₁ ++ l₂) = byteOfBits l₁ * 2 ^ l₂.length + byteOfBits l₂ := by
  show (l₁ ++ l₂).foldl _ 0 = _
  rw [List.foldl_append, byteOfBits_foldl]
  rfl

theorem byteOfBits_lt (l : List Bool) : byteOfBits l < 2 ^ l.length := by
  induction l with
  | nil => simp [byteOfBits]
  | cons b t ih =>
    rw [byteOfBits_cons]
    simp only [List.length_cons, pow_succ]
    cases b <;> simp <;> omega

theorem byteOfBits_replicate_false (k : Nat) :
    byteOfBits (List.replicate k false) = 0 := by
  induction k with
  | zero => rfl
  | succ k ih => rw [List.replicate_succ, byteOfBits_cons]; simp [ih]

theorem byteToBits_byteOfBits_eight :
    ∀ (a b c d e f g h : Bool),
      byteToBits (byteOfBits [a, b, c, d, e, f, g, h]) = [a, b, c, d, e, f, g, h] := by
  decide

theorem byteToBits_byteOfBits (l : List Bool) (hl : l.length = 8) :
    byteToBits (byteOfBits l) = l := by
  match l, hl with
  | [a, b, c, d, e, f, g, h], _ => exact byteToBits_byteOfBits_eight a b c d e f g h

theorem padTo8_of_length_eight (c : List Bool) (hc : c.length = 8) :
    padTo8 c = c := by
  simp [padTo8, hc]

/-- Everything `encode`'s byte buffer satisfies when the bit count is a
multiple of 8: `size` bytes, all below 256, and recovering the bits gives
back the buffer. -/
theorem bitsToBytes_spec (k : Nat) (l : List Bool) (hl : l.length = 8 * k) :
    (bitsToBytes l).length = k ∧ (∀ b ∈ bitsToBytes l, b < 256) ∧
      bytesToBits (bitsToBytes l) = l := by
  induction k generalizing l with
  | zero =>
    have : l = [] := List.eq_nil_of_length_eq_zero (by omega)
    subst this
    exact ⟨rfl, by simp [bitsToBytes, chunksList_nil, bytesToBits], rfl⟩
  | succ k ih =>
    have hne : l ≠ [] := by
      intro h
      rw [h] at hl
      simp only [List.length_nil] at hl
      omega
    have htake : (l.take 8).length = 8 := by
      rw [List.length_take, hl]; omega
    have hdrop : (l.drop 8).length = 8 * k := by
      rw [List.length_drop, hl]; omega
    obtain ⟨ihlen, ihlt, ihbits⟩ := ih (l.drop 8) hdrop
    have hunfold : bitsToBytes l
        = byteOfBits (l.take 8) :: bitsToBytes (l.drop 8) := by
      unfold bitsToBytes
      rw [chunksList_cons 8 (by omega) l hne]
      simp [padTo8_of_length_eight _ htake]
    refine ⟨?_, ?_, ?_⟩
    · rw [hunfold]; simp [ihlen]
    · rw [hunfold]
      intro b hb
      rcases List.mem_cons.mp hb with h | h
      · subst h
        have := byteOfBits_lt (l.take 8)
        rw [htake] at this
        omega
      · exact ihlt b h
    · rw [hunfold]
      show byteToBits (byteOfBits (l.take 8)) ++ bytesToBits (bitsToBytes (l.drop 8)) = l
      rw [byteToBits_byteOfBits _ htake, ihbits, List.take_append_drop]

theorem toDigit16_hexChar_fin :
    ∀ d : Fin 16, toDigit16 (hexChar d.val) = some d.val := by
  decide

theorem toDigit16_hexChar (d : Nat) (hd : d < 16) :
    toDigit16 (hexChar d) = some d :=
  toDigit16_hexChar_fin ⟨d, hd⟩

theorem hexChar_utf8Size_fin : ∀ d : Fin 16, (hexChar d.val).utf8Size = 1 := by
  decide

theorem hexChar_utf8Size (d : Nat) (hd : d < 16) : (hexChar d).utf8Size = 1 :=
  hexChar_utf8Size_fin ⟨d, hd⟩

theorem byteLen_append (s t : List Char) :
    byteLen (s ++ t) = byteLen s + byteLen t := by
  simp [byteLen]

theorem byteLen_byteHex2 (b : Nat) (hb : b < 256) : byteLen (byteHex2 b) = 2 := by
  simp [byteHex2, byteLen,
    hexChar_utf8Size (b / 16) (by omega), hexChar_utf8Size (b % 16) (by omega)]

theorem byteLen_flatMap_byteHex2 (bs : List Nat) (hb : ∀ b ∈ bs, b < 256) :
    byteLen (bs.flatMap byteHex2) = 2 * bs.length := by
  induction bs with
  | nil => rfl
  | cons b t ih =>
    rw [List.flatMap_cons, byteLen_append,
      byteLen_byteHex2 b (hb b (List.mem_cons_self _ _)),
      ih (fun x hx => hb x (List.mem_cons_of_mem _ hx))]
    simp [Nat.mul_succ]
    omega

theorem readBytes_flatMap_byteHex2 (bs : List Nat) (hb : ∀ b ∈ bs, b < 256) :
    readBytes bs.length (bs.flatMap byteHex2) = some (.ok bs) := by
  induction bs with
  | nil => rfl
  | cons b t ih =>
    have hblt : b < 256 := hb b (List.mem_cons_self _ _)
    rw [List.flatMap_cons]
    show readBytes (t.length + 1)
      (hexChar (b / 16) :: hexChar (b % 16) :: t.flatMap byteHex2) = _
    simp only [readBytes, toDigit16_hexChar (b / 16) (by omega),
      toDigit16_hexChar (b % 16) (by omega),
      ih (fun x hx => hb x (List.mem_cons_of_mem _ hx))]
    have : b / 16 * 16 + b % 16 = b := by omega
    rw [this]

theorem readBytes_ok_length (k : Nat) (cs : List Char) (bs : List Nat)
    (h : readBytes k cs = some (.ok bs)) : bs.length = k := by
  induction k generalizing cs bs with
  | zero =>
    simp only [readBytes] at h
    cases h
    rfl
  | succ k ih =>
    match cs with
    | [] => simp [readBytes] at h
    | c1 :: cs1 =>
      simp only [readBytes] at h
      match h1 : toDigit16 c1 with
      | none => simp [h1] at h
      | some hi =>
        simp only [h1] at h
        match cs1 with
        | [] => simp at h
        | c2 :: cs2 =>
          match h2 : toDigit16 c2 with
          | none => simp [h2] at h
          | some lo =>
            simp only [h2] at h
            match h3 : readBytes k cs2 with
            | none => simp [h3] at h
            | some (.error e) => simp [h3] at h
            | some (.ok bs') =>
              simp only [h3, Option.some.injEq, Except.ok.injEq] at h
              subst h
              simp [ih cs2 bs' h3]

theorem readBytes_none (k : Nat) (cs : List Char) (h : readBytes k cs = none) :
    cs.length < 2 * k ∧ ∀ c ∈ cs, (toDigit16 c).isSome := by
  induction k generalizing cs with
  | zero => simp [readBytes] at h
  | succ k ih =>
    match cs with
    | [] => exact ⟨by simp only [List.length_nil]; omega, by simp⟩
    | c1 :: cs1 =>
      simp only [readBytes] at h
      match h1 : toDigit16 c1 with
      | none => simp [h1] at h
      | some hi =>
        simp only [h1] at h
        match cs1 with
        | [] =>
          refine ⟨by simp; omega, ?_⟩
          intro c hc
          rcases List.mem_singleton.mp hc with rfl
          simp [h1]
        | c2 :: cs2 =>
          match h2 : toDigit16 c2 with
          | none => simp [h2] at h
          | some lo =>
            simp only [h2] at h
            match h3 : readBytes k cs2 with
            | none =>
              obtain ⟨hlen, hall⟩ := ih cs2 h3
              refine ⟨by simp; omega, ?_⟩
              intro c hc
              rcases List.mem_cons.mp hc with rfl | hc
              · simp [h1]
              rcases List.mem_cons.mp hc with rfl | hc
              · simp [h2]
              · exact hall c hc
            | some (.error e) => simp [h3] at h
            | some (.ok bs) => simp [h3] at h

theorem utf8Size_of_toDigit16_isSome (c : Char) (h : (toDigit16 c).isSome) :
    c.utf8Size = 1 := by
  have hle : c.toNat ≤ 102 := by
    by_contra hgt
    simp only [toDigit16] at h
    rw [if_neg (by omega), if_neg (by omega), if_neg (by omega)] at h
    simp at h
  have hv : c.val ≤ UInt32.ofNatCore 127 Char.utf8Size.proof_1 := by
    rw [UInt32.le_def, BitVec.le_def]
    show c.val.toNat ≤ 127
    exact Nat.le_trans hle (by norm_num)
  simp only [Char.utf8Size]
  rw [if_pos hv]

theorem byteLen_of_all_ascii (s : List Char)
    (h : ∀ c ∈ s, c.utf8Size = 1) : byteLen s = s.length := by
  induction s with
  | nil => rfl
  | cons c t ih =>
    show c.utf8Size + byteLen t = t.length + 1
    rw [h c (List.mem_cons_self _ _), ih (fun x hx => h x (List.mem_cons_of_mem _ hx))]
    omega

theorem byteLen_ge_length (s : List Char) : s.length ≤ byteLen s := by
  induction s with
  | nil => simp [byteLen]
  | cons c t ih =>
    show t.length + 1 ≤ c.utf8Size + byteLen t
    have := Char.utf8Size_pos c
    omega

theorem bytesToBits_length (bs : List Nat) :
    (bytesToBits bs).length = 8 * bs.length := by
  induction bs with
  | nil => rfl
  | cons b t ih =>
    show (byteToBits b ++ bytesToBits t).length = _
    simp only [List.length_append, ih, List.length_cons]
    have : (byteToBits b).length = 8 := rfl
    omega

/-- The arithmetic the hex codec relies on: with `size = ⌈L/8⌉` bytes,
`nibbles = ⌈L/4⌉` hex digits and `padding` front bits, an odd digit count
means exactly one spare nibble of padding. -/
theorem codecArith (L : Nat) (hL : 1 ≤ L) :
    let size := (L + 7) / 8
    let nibbles := (L + 3) / 4
    let padding := size * 8 - L
    padding + L = 8 * size ∧ 1 ≤ size ∧ 1 ≤ nibbles ∧
      (nibbles % 2 = 1 → nibbles + 1 = 2 * size ∧ 4 ≤ padding ∧ padding < 8) ∧
      (nibbles % 2 = 0 → nibbles = 2 * size ∧ padding < 4) := by
  intro size nibbles padding
  refine ⟨by omega, by omega, by omega, ?_, ?_⟩ <;> omega

end ImgHash

namespace ImgHash

/-- Core totality argument for `decode`: once the byte-length check has
passed, the padded character stream holds at least `2 * size` characters
(every hex digit consumed is ASCII, hence one byte), so the iterator
`unwrap`s cannot fire; and the decoded bit buffer always has at least
`padding` bits. -/
theorem decode_isSome (s : List Char) (w h : Nat) : (decode s w h).isSome := by
  simp only [decode]
  split
  · simp
  · split
    · simp
    · split
      · simp
      · rename_i hL hs hlen
        set L := w * h with hLdef
        set size := (L + 7) / 8 with hsize
        set nibbles := (L + 3) / 4 with hnib
        set padding := size * 8 - L with hpad
        set cs := (if nibbles % 2 = 1 then [Char.ofNat 48] else []) ++ s with hcs
        match hrb : readBytes size cs with
        | none =>
          exfalso
          obtain ⟨hshort, hall⟩ := readBytes_none size cs hrb
          have hs_ascii : ∀ c ∈ s, c.utf8Size = 1 := by
            intro c hc
            exact utf8Size_of_toDigit16_isSome c
              (hall c (by rw [hcs]; exact List.mem_append_right _ hc))
          have hslen : s.length = nibbles := by
            rw [← byteLen_of_all_ascii s hs_ascii]
            omega
          have hcslen : cs.length = (if nibbles % 2 = 1 then 1 else 0) + nibbles := by
            rw [hcs, List.length_append, hslen]
            split <;> simp
          have : 1 ≤ L := by omega
          have harith := codecArith L this
          simp only [← hsize, ← hnib, ← hpad] at harith
          obtain ⟨hps, hs1, hn1, hodd, heven⟩ := harith
          by_cases hodd1 : nibbles % 2 = 1
          · obtain ⟨ho, _, _⟩ := hodd hodd1
            rw [hcslen] at hshort
            simp [hodd1] at hshort
            omega
          · have he := heven (by omega)
            rw [hcslen] at hshort
            simp [hodd1] at hshort
            omega
        | some (.error e) => simp [hrb]
        | some (.ok bytes) =>
          simp only [hrb]
          have hblen : bytes.length = size := readBytes_ok_length size cs bytes hrb
          have hbits : (bytesToBits bytes).length = 8 * size := by
            rw [bytesToBits_length, hblen]
          rw [if_pos (by rw [hbits]; omega)]
          simp

end ImgHash

namespace ImgHash

theorem byteOfBits_lt_sixteen_of_prefix (c8 : List Bool) (hlen : c8.length = 8)
    (hpre : c8.take 4 = List.replicate 4 false) : byteOfBits c8 < 16 := by
  have hsplit : c8 = c8.take 4 ++ c8.drop 4 := (List.take_append_drop 4 c8).symm
  rw [hsplit, hpre, byteOfBits_append, byteOfBits_replicate_false]
  have hd : (c8.drop 4).length = 4 := by rw [List.length_drop, hlen]
  have := byteOfBits_lt (c8.drop 4)
  rw [hd] at this
  simpa using this

theorem toDigit16_zeroChar : toDigit16 (Char.ofNat 48) = some 0 := by decide

/-- The first padded chunk of `encode`'s buffer starts with four zero bits
whenever at least four bits of padding were prepended. -/
theorem take_four_padded (padding : Nat) (bits : List Bool) (hp : 4 ≤ padding) :
    ((List.replicate padding false ++ bits).take 8).take 4
      = List.replicate 4 false := by
  rw [List.take_take]
  have h4 : min 4 8 = 4 := by omega
  rw [h4, List.take_append_of_le_length (by simpa using hp), List.take_replicate]
  congr 1
  omega

end ImgHash

namespace ImgHash

/-- `encode` on a hash with positive area, unfolded past its panic guard. -/
theorem encode_eq_of_pos (w h : Nat) (bits : List Bool) (h1 : 0 < w * h) :
    encode ⟨bits, w, h⟩
      = some (match bitsToBytes
          (List.replicate ((w * h + 7) / 8 * 8 - w * h) false ++ bits) with
        | [] => []
        | b :: rest =>
          (if (w * h + 3) / 4 % 2 = 1 then byteHex1 b else byteHex2 b)
            ++ rest.flatMap byteHex2) := by
  simp only [encode]
  rw [if_neg]
  rintro ⟨rfl, rfl⟩
  simp at h1

/-- Hex-codec round trip, the work-horse behind claim C1. -/
theorem encode_decode_roundtrip (w h : Nat) (bits : List Bool)
    (h1 : 0 < w * h) (h2 : bits.length = w * h) :
    (encode ⟨bits, w, h⟩).isSome ∧
      decode ((encode ⟨bits, w, h⟩).getD []) w h
        = some (.ok ⟨bits, w, h⟩) := by
  have harith := codecArith (w * h) h1
  set L := w * h with hL
  set size := (L + 7) / 8 with hsize
  set nibbles := (L + 3) / 4 with hnib
  set padding := size * 8 - L with hpad
  obtain ⟨hps, hs1, hn1, hoddF, hevenF⟩ := harith
  set padded := List.replicate padding false ++ bits with hpadded
  have hpaddedlen : padded.length = 8 * size := by
    rw [hpadded, List.length_append, List.length_replicate, h2]
    omega
  obtain ⟨hblen, hblt, hbbits⟩ := bitsToBytes_spec size padded hpaddedlen
  match hbytes : bitsToBytes padded with
  | [] =>
    rw [hbytes] at hblen
    simp at hblen
    omega
  | b0 :: rest =>
    rw [hbytes] at hblen hblt hbbits
    have henc : encode ⟨bits, w, h⟩
        = some ((if nibbles % 2 = 1 then byteHex1 b0 else byteHex2 b0)
            ++ rest.flatMap byteHex2) := by
      have he := encode_eq_of_pos w h bits h1
      rw [← hL, ← hsize, ← hpad, ← hpadded, hbytes] at he
      rw [he]
    simp only [List.length_cons] at hblen
    have hrestlt : ∀ b ∈ rest, b < 256 :=
      fun b hb => hblt b (List.mem_cons_of_mem _ hb)
    have hb0lt : b0 < 256 := hblt b0 (List.mem_cons_self _ _)
    -- the decoded buffer recovers the padded bits
    have hdropped : (bytesToBits (b0 :: rest)).drop padding = bits := by
      rw [hbbits, hpadded]
      have := List.drop_left (List.replicate padding false) bits
      rwa [List.length_replicate] at this
    have hbitslen : (bytesToBits (b0 :: rest)).length = 8 * size := by
      rw [hbbits, hpaddedlen]
    by_cases hodd : nibbles % 2 = 1
    · -- odd digit count: a single leading digit, preceded by a virtual '0'
      obtain ⟨hn2s, hp4, hp8⟩ := hoddF hodd
      have hb0small : b0 < 16 := by
        have hne : padded ≠ [] := by
          intro hnil; rw [hnil] at hpaddedlen; simp at hpaddedlen; omega
        have htk8 : (padded.take 8).length = 8 := by
          rw [List.length_take, hpaddedlen]; omega
        have hfirst : bitsToBytes padded = byteOfBits (padded.take 8) :: bitsToBytes (padded.drop 8) := by
          unfold bitsToBytes
          rw [chunksList_cons 8 (by omega) padded hne]
          simp only [List.map_cons]
          rw [padTo8_of_length_eight _ htk8]
        rw [hbytes] at hfirst
        have hb0eq : b0 = byteOfBits (padded.take 8) := by
          exact (List.cons.injEq _ _ _ _ ▸ hfirst).1
        rw [hb0eq]
        apply byteOfBits_lt_sixteen_of_prefix
        · rw [List.length_take, hpaddedlen]; omega
        · rw [hpadded]; exact take_four_padded padding bits hp4
      have hhex1 : byteHex1 b0 = [hexChar b0] := by
        rw [byteHex1, if_pos hb0small]
      rw [if_pos hodd, hhex1] at henc
      set chars := [hexChar b0] ++ rest.flatMap byteHex2 with hchars
      have hcharslen : byteLen chars = nibbles := by
        rw [hchars, byteLen_append, byteLen_flatMap_byteHex2 rest hrestlt]
        have : byteLen [hexChar b0] = 1 := by
          simp [byteLen, hexChar_utf8Size b0 hb0small]
        rw [this]
        omega
      refine ⟨by rw [henc]; rfl, ?_⟩
      rw [henc]
      show decode chars w h = _
      simp only [decode]
      rw [← hL, ← hsize, ← hnib, ← hpad]
      rw [if_neg (by omega), if_neg (by omega), if_neg (by omega)]
      rw [if_pos hodd]
      obtain ⟨k, hk⟩ : ∃ k, size = k + 1 := ⟨size - 1, by omega⟩
      have hrestlen : rest.length = k := by omega
      have hread : readBytes size ([Char.ofNat 48] ++ chars)
          = some (.ok (b0 :: rest)) := by
        rw [hchars, hk]
        show readBytes (k + 1)
          (Char.ofNat 48 :: hexChar b0 :: rest.flatMap byteHex2) = _
        simp only [readBytes, toDigit16_zeroChar, toDigit16_hexChar b0 hb0small]
        rw [← hrestlen, readBytes_flatMap_byteHex2 rest hrestlt]
        norm_num
      simp only [hread]
      rw [if_pos (by rw [hbitslen]; omega)]
      rw [hdropped]
    · -- even digit count: plain two digits per byte
      have heven := hevenF (by omega)
      obtain ⟨hn2s, hplt⟩ := heven
      rw [if_neg hodd] at henc
      have hflat : byteHex2 b0 ++ rest.flatMap byteHex2
          = (b0 :: rest).flatMap byteHex2 := by
        rw [List.flatMap_cons]
      rw [hflat] at henc
      set chars := (b0 :: rest).flatMap byteHex2 with hchars
      have hcharslen : byteLen chars = nibbles := by
        rw [hchars, byteLen_flatMap_byteHex2 _ hblt]
        simp only [List.length_cons]
        omega
      refine ⟨by rw [henc]; rfl, ?_⟩
      rw [henc]
      show decode chars w h = _
      simp only [decode]
      rw [← hL, ← hsize, ← hnib, ← hpad]
      rw [if_neg (by omega), if_neg (by omega), if_neg (by omega)]
      rw [if_neg hodd]
      have hread : readBytes size ([] ++ chars) = some (.ok (b0 :: rest)) := by
        rw [List.nil_append, hchars, ← hblen]
        exact readBytes_flatMap_byteHex2 _ hblt
      simp only [hread]
      rw [if_pos (by rw [hbitslen]; omega)]
      rw [hdropped]

theorem bitsToBytes_cons_eight (l : List Bool) (hlen : 8 ≤ l.length) :
    bitsToBytes l = byteOfBits (l.take 8) :: bitsToBytes (l.drop 8) := by
  unfold bitsToBytes
  rw [chunksList_cons 8 (by omega) l (by intro h; rw [h] at hlen; simp at hlen)]
  simp only [List.map_cons]
  rw [padTo8_of_length_eight _ (by rw [List.length_take]; omega)]

/-- A byte's two hex digits are exactly the hex digits of its two nibbles. -/
theorem byteHex2_of_nibbles (t4 d4 : List Bool) (_ht : t4.length = 4)
    (hd : d4.length = 4) :
    byteHex2 (byteOfBits (t4 ++ d4))
      = [hexChar (byteOfBits t4), hexChar (byteOfBits d4)] := by
  rw [byteOfBits_append, hd]
  have hdlt : byteOfBits d4 < 16 := by
    have := byteOfBits_lt d4
    rw [hd] at this
    simpa using this
  have h16 : (2 : Nat) ^ 4 = 16 := by norm_num
  rw [h16]
  have hdiv : (byteOfBits t4 * 16 + byteOfBits d4) / 16 = byteOfBits t4 := by
    omega
  have hmod : (byteOfBits t4 * 16 + byteOfBits d4) % 16 = byteOfBits d4 := by
    omega
  show [hexChar ((byteOfBits t4 * 16 + byteOfBits d4) / 16),
        hexChar ((byteOfBits t4 * 16 + byteOfBits d4) % 16)] = _
  rw [hdiv, hmod]

/-- Per-byte hex output agrees with per-nibble hex output on whole-byte bit
buffers. -/
theorem flatMap_byteHex2_eq_nibbles (k : Nat) (l : List Bool)
    (hl : l.length = 8 * k) :
    (bitsToBytes l).flatMap byteHex2
      = (chunksList 4 l).map (fun c => hexChar (byteOfBits c)) := by
  induction k generalizing l with
  | zero =>
    have : l = [] := List.eq_nil_of_length_eq_zero (by omega)
    subst this
    rfl
  | succ k ih =>
    have hne : l ≠ [] := by
      intro h; rw [h] at hl; simp at hl
    have hd4ne : l.drop 4 ≠ [] := by
      intro h
      have := congrArg List.length h
      rw [List.length_drop, hl] at this
      simp only [List.length_nil] at this
      omega
    have hdrop8 : (l.drop 8).length = 8 * k := by
      rw [List.length_drop, hl]; omega
    rw [bitsToBytes_cons_eight l (by omega), List.flatMap_cons]
    rw [chunksList_cons 4 (by omega) l hne,
      chunksList_cons 4 (by omega) (l.drop 4) hd4ne]
    rw [List.drop_drop]
    have h48 : (4 : Nat) + 4 = 8 := rfl
    rw [h48]
    simp only [List.map_cons]
    have htake : l.take 8 = l.take 4 ++ (l.drop 4).take 4 := by
      rw [← List.take_add]
    rw [htake, byteHex2_of_nibbles (l.take 4) ((l.drop 4).take 4)
      (by rw [List.length_take, hl]; omega)
      (by rw [List.length_take, List.length_drop, hl]; omega)]
    rw [ih (l.drop 8) hdrop8]
    rfl

/-- `encode` produces exactly the nibble-wise reference format. -/
theorem encode_eq_specHexEncode (w h : Nat) (bits : List Bool)
    (h1 : 0 < w * h) (h2 : bits.length = w * h) :
    encode ⟨bits, w, h⟩ = some (specHexEncode bits) ∧
      (specHexEncode bits).length = (w * h + 3) / 4 := by
  have harith := codecArith (w * h) h1
  set L := w * h with hL
  set size := (L + 7) / 8 with hsize
  set nibbles := (L + 3) / 4 with hnib
  set padding := size * 8 - L with hpad
  obtain ⟨hps, hs1, hn1, hoddF, hevenF⟩ := harith
  set padded := List.replicate padding false ++ bits with hpadded
  have hpaddedlen : padded.length = 8 * size := by
    rw [hpadded, List.length_append, List.length_replicate, h2]
    omega
  set pad4 := (4 - L % 4) % 4 with hpad4
  set padded4 := List.replicate pad4 false ++ bits with hpadded4
  have hp4len : padded4.length = 4 * nibbles := by
    rw [hpadded4, List.length_append, List.length_replicate, h2]
    omega
  have hspec : specHexEncode bits
      = (chunksList 4 padded4).map (fun c => hexChar (byteOfBits c)) := by
    unfold specHexEncode
    rw [h2]
  have hlen : (specHexEncode bits).length = nibbles := by
    rw [hspec, List.length_map, chunksList_length 4 nibbles (by omega) padded4 hp4len]
  refine ⟨?_, hlen⟩
  obtain ⟨hblen, hblt, hbbits⟩ := bitsToBytes_spec size padded hpaddedlen
  match hbytes : bitsToBytes padded with
  | [] =>
    rw [hbytes] at hblen
    simp at hblen
    omega
  | b0 :: rest =>
    rw [hbytes] at hblen hblt hbbits
    simp only [List.length_cons] at hblen
    have henc : encode ⟨bits, w, h⟩
        = some ((if nibbles % 2 = 1 then byteHex1 b0 else byteHex2 b0)
            ++ rest.flatMap byteHex2) := by
      have he := encode_eq_of_pos w h bits h1
      rw [← hL, ← hsize, ← hpad, ← hpadded, hbytes] at he
      rw [he]
    by_cases hodd : nibbles % 2 = 1
    · obtain ⟨hn2s, hp4le, hp8⟩ := hoddF hodd
      have hpadeq : padding = 4 + pad4 := by omega
      have hpadded44 : padded = List.replicate 4 false ++ padded4 := by
        rw [hpadded, hpadded4, hpadeq, List.replicate_add, List.append_assoc]
      have hfirst : bitsToBytes padded
          = byteOfBits (padded.take 8) :: bitsToBytes (padded.drop 8) :=
        bitsToBytes_cons_eight padded (by omega)
      rw [hbytes] at hfirst
      have hb0eq : b0 = byteOfBits (padded.take 8) :=
        (List.cons.injEq _ _ _ _ ▸ hfirst).1
      have hresteq : rest = bitsToBytes (padded.drop 8) :=
        (List.cons.injEq _ _ _ _ ▸ hfirst).2
      have htake8 : padded.take 8 = List.replicate 4 false ++ padded4.take 4 := by
        rw [hpadded44, List.take_append_eq_append_take]
        simp
      have hb0val : b0 = byteOfBits (padded4.take 4) := by
        rw [hb0eq, htake8, byteOfBits_append, byteOfBits_replicate_false]
        simp
      have htk4len : (padded4.take 4).length = 4 := by
        rw [List.length_take, hp4len]
        omega
      have hb0small : b0 < 16 := by
        rw [hb0val]
        have := byteOfBits_lt (padded4.take 4)
        rw [htk4len] at this
        simpa using this
      have hdrop8 : padded.drop 8 = padded4.drop 4 := by
        rw [hpadded44, List.drop_append_eq_append_drop]
        simp
      have hd4len : (padded4.drop 4).length = 8 * (size - 1) := by
        rw [List.length_drop, hp4len]
        omega
      have hp4ne : padded4 ≠ [] := by
        intro hnil
        rw [hnil] at hp4len
        simp at hp4len
        omega
      rw [henc, if_pos hodd, byteHex1, if_pos hb0small]
      rw [hspec, chunksList_cons 4 (by omega) padded4 hp4ne, List.map_cons]
      rw [hresteq, hdrop8, flatMap_byteHex2_eq_nibbles (size - 1) _ hd4len]
      rw [hb0val]
      rfl
    · obtain ⟨hn2s, hplt⟩ := hevenF (by omega)
      have hpadeq : pad4 = padding := by omega
      have hpaddedeq : padded4 = padded := by
        rw [hpadded, hpadded4, hpadeq]
      rw [henc, if_neg hodd]
      have hflat : byteHex2 b0 ++ rest.flatMap byteHex2
          = (b0 :: rest).flatMap byteHex2 := by
        rw [List.flatMap_cons]
      rw [hflat, ← hbytes, hspec, hpaddedeq,
        flatMap_byteHex2_eq_nibbles size padded hpaddedlen]

/-- Inverting a successful `decode`: the dimensions are the requested ones,
the area is positive, and the bit count is exactly the area. -/
theorem decode_ok_spec (s : List Char) (w h : Nat) (hsh : ImageHash)
    (hdec : decode s w h = some (.ok hsh)) :
    hsh.width = w ∧ hsh.height = h ∧ 0 < w * h ∧
      hsh.data.length = w * h := by
  simp only [decode] at hdec
  split at hdec
  · simp at hdec
  · split at hdec
    · simp at hdec
    · split at hdec
      · simp at hdec
      · split at hdec
        · simp at hdec
        · simp at hdec
        · rename_i hL hs hlen bytes hrb
          split at hdec
          · simp only [Option.some.injEq, Except.ok.injEq] at hdec
            subst hdec
            refine ⟨rfl, rfl, by omega, ?_⟩
            show ((bytesToBits bytes).drop ((w * h + 7) / 8 * 8 - w * h)).length = w * h
            rw [List.length_drop, bytesToBits_length,
              readBytes_ok_length _ _ _ hrb]
            omega
          · simp at hdec

/-! ### Claim theorems -/

/-- C1: Hex codec round-trip — for every `width`, `height` with
`width*height > 0` and every bit sequence of that length, `encode` succeeds
and `decode (encode h) width height` returns the original hash (same width,
height and bit sequence). -/
theorem claim_c1_roundtrip (w h : Nat) (bits : List Bool)
    (h1 : 0 < w * h) (h2 : bits.length = w * h) :
    (encode ⟨bits, w, h⟩).isSome ∧
      decode ((encode ⟨bits, w, h⟩).getD []) w h
        = some (.ok ⟨bits, w, h⟩) :=
  encode_decode_roundtrip w h bits h1 h2

theorem claim_c1_roundtrip_witness :
    (encode ⟨[true, false, true, false, true], 5, 1⟩).isSome ∧
      decode ((encode ⟨[true, false, true, false, true], 5, 1⟩).getD []) 5 1
        = some (.ok ⟨[true, false, true, false, true], 5, 1⟩) :=
  claim_c1_roundtrip 5 1 [true, false, true, false, true]
    (by decide) (by decide)

/-- C2: `encode` produces the reference hex format — the row-major bits,
front-padded with zeros to a multiple of 4, rendered as `⌈L/4⌉` lowercase
hex digits, MSB-first per nibble and per digit; and the three literal
vectors from the spec produce `"24f0"`, `"1"` and `"6a3e1"`. -/
theorem claim_c2_encode_format :
    (∀ (hsh : ImageHash), 0 < hsh.width * hsh.height →
        hsh.data.length = hsh.width * hsh.height →
        encode hsh = some (specHexEncode hsh.data) ∧
          (specHexEncode hsh.data).length = (hsh.width * hsh.height + 3) / 4) ∧
      encode ⟨[false, false, true, false,
               false, true, false, false,
               true, true, true, true,
               false, false, false, false], 4, 4⟩
        = some ['2', '4', 'f', '0'] ∧
      encode ⟨[true], 1, 1⟩ = some ['1'] ∧
      encode ⟨[false, true, true, false, true,
               false, true, false, false, false,
               true, true, true, true, true,
               false, false, false, false, true], 5, 4⟩
        = some ['6', 'a', '3', 'e', '1'] := by
  refine ⟨?_, by decide, by decide, by decide⟩
  intro hsh h1 h2
  obtain ⟨d, w, h⟩ := hsh
  exact encode_eq_specHexEncode w h d h1 h2

theorem claim_c2_encode_format_witness :
    encode ⟨[true], 1, 1⟩ = some (specHexEncode [true]) ∧
      (specHexEncode [true]).length
        = ((ImageHash.mk [true] 1 1).width * (ImageHash.mk [true] 1 1).height + 3) / 4 :=
  claim_c2_encode_format.1 ⟨[true], 1, 1⟩ (by decide) (by decide)

/-- C4 (code bug evidence): `encode` panics only when `width` and `height`
are BOTH zero; a hash with `width = 0, height = 1` — constructible through
`from_bool_iter` — has `width*height = 0` yet encodes successfully to the
empty string instead of being rejected. -/
theorem claim_c4_encode_zero_area :
    fromBoolIter [] 0 1 = some ⟨[], 0, 1⟩ ∧
      encode ⟨[], 0, 1⟩ = some [] ∧
      encode ⟨[], 1, 0⟩ = some [] ∧
      encode ⟨[], 0, 0⟩ = none := by
  refine ⟨by decide, by decide, by decide, by decide⟩

/-- C5 counterexample: `from_bool_iter` with an empty iterator and
`width = 0, height = 5` returns a hash without failing, violating the
claimed `width > 0` invariant. -/
theorem claim_c5_invariant_counterexample :
    fromBoolIter [] 0 5 = some ⟨[], 0, 5⟩ ∧
      (ImageHash.mk [] 0 5).width = 0 := by
  refine ⟨by decide, by decide⟩

/-- C5 amended: `new` and `decode` establish `width > 0`, `height > 0` and
`len(bits) = width*height`; `from_bool_iter` establishes only
`len(bits) = width*height` (it accepts zero dimensions with an empty
stream); equality of hashes is field-wise. -/
theorem claim_c5_invariant_amended :
    (∀ (m : List (List Bool)) (hsh : ImageHash), newHash m = some hsh →
        0 < hsh.width ∧ 0 < hsh.height ∧
          hsh.data.length = hsh.width * hsh.height) ∧
      (∀ (l : List Bool) (w h : Nat) (hsh : ImageHash),
        fromBoolIter l w h = some hsh →
          hsh.data.length = hsh.width * hsh.height) ∧
      (∀ (s : List Char) (w h : Nat) (hsh : ImageHash),
        decode s w h = some (.ok hsh) →
          0 < hsh.width ∧ 0 < hsh.height ∧
            hsh.data.length = hsh.width * hsh.height) ∧
      (∀ a b : ImageHash,
        a = b ↔ a.width = b.width ∧ a.height = b.height ∧ a.data = b.data) := by
  have hfrom : ∀ (l : List Bool) (w h : Nat) (hsh : ImageHash),
      fromBoolIter l w h = some hsh →
        hsh.data = l ∧ hsh.width = w ∧ hsh.height = h ∧ l.length = w * h := by
    intro l w h hsh hf
    simp only [fromBoolIter] at hf
    split at hf
    · rename_i hl
      cases hf
      exact ⟨rfl, rfl, rfl, hl⟩
    · simp at hf
  refine ⟨?_, ?_, ?_, ?_⟩
  · intro m hsh hnew
    match m with
    | [] => simp [newHash] at hnew
    | r0 :: rows =>
      simp only [newHash] at hnew
      split at hnew
      · simp at hnew
      · split at hnew
        · rename_i hr0 _
          obtain ⟨hd, hw, hh, hl⟩ := hfrom _ _ _ _ hnew
          refine ⟨by omega, by rw [hh]; simp, by rw [hd, hw, hh, hl]⟩
        · simp at hnew
  · intro l w h hsh hf
    obtain ⟨hd, hw, hh, hl⟩ := hfrom l w h hsh hf
    rw [hd, hw, hh, hl]
  · intro s w h hsh hdec
    obtain ⟨hw, hh, hpos, hlen⟩ := decode_ok_spec s w h hsh hdec
    have hw0 : 0 < w := by
      rcases Nat.eq_zero_or_pos w with h0 | h0
      · rw [h0] at hpos; simp at hpos
      · exact h0
    have hh0 : 0 < h := by
      rcases Nat.eq_zero_or_pos h with h0 | h0
      · rw [h0] at hpos; simp at hpos
      · exact h0
    exact ⟨by rw [hw]; exact hw0, by rw [hh]; exact hh0, by rw [hw, hh, hlen]⟩
  · intro a b
    constructor
    · rintro rfl
      exact ⟨rfl, rfl, rfl⟩
    · obtain ⟨da, wa, ha⟩ := a
      obtain ⟨db, wb, hb⟩ := b
      rintro ⟨h1, h2, h3⟩
      simp only at h1 h2 h3
      rw [h1, h2, h3]

theorem claim_c5_invariant_amended_witness :
    0 < (ImageHash.mk [true] 1 1).width ∧
      0 < (ImageHash.mk [true] 1 1).height ∧
      (ImageHash.mk [true] 1 1).data.length
        = (ImageHash.mk [true] 1 1).width * (ImageHash.mk [true] 1 1).height :=
  claim_c5_invariant_amended.1 [[true]] ⟨[true], 1, 1⟩ (by decide)

/-- C8: `distance` returns an error exactly when the shapes differ, and on
equal shapes returns the Hamming distance over exactly `width*height`
positions. -/
theorem claim_c8_distance (a b : ImageHash)
    (ha : a.data.length = a.width * a.height)
    (hb : b.data.length = b.width * b.height) :
    (shape a ≠ shape b →
        distance a b
          = .error "Cannot compute distance of hashes with different sizes") ∧
      (shape a = shape b →
        distance a b
            = .ok ((a.data.zip b.data).countP (fun p => p.1 != p.2)) ∧
          (a.data.zip b.data).length = a.width * a.height) := by
  constructor
  · intro hne
    rw [distance, if_pos hne]
  · intro he
    have hwh : a.height = b.height ∧ a.width = b.width := by
      simpa [shape, Prod.ext_iff] using he
    have hzlen : (a.data.zip b.data).length = a.width * a.height := by
      rw [List.length_zip, ha, hb, hwh.1, hwh.2]
      simp
    refine ⟨?_, hzlen⟩
    rw [distance, if_neg (by simp [he])]
    congr 1
    rw [← hzlen, List.take_length]

theorem claim_c8_distance_witness :
    distance ⟨[true, false], 2, 1⟩ ⟨[false, false], 2, 1⟩
        = .ok (((ImageHash.mk [true, false] 2 1).data.zip
            (ImageHash.mk [false, false] 2 1).data).countP
            (fun p => p.1 != p.2)) ∧
      ((ImageHash.mk [true, false] 2 1).data.zip
          (ImageHash.mk [false, false] 2 1).data).length
        = (ImageHash.mk [true, false] 2 1).width
            * (ImageHash.mk [true, false] 2 1).height :=
  (claim_c8_distance ⟨[true, false], 2, 1⟩ ⟨[false, false], 2, 1⟩
    (by decide) (by decide)).2 rfl

/-- C10: `decode` is total — for every string and every pair of dimensions
it terminates with `Ok` or `Err` and never panics (no iterator `unwrap` and
no bit-slice index can fail). -/
theorem claim_c10_decode_total (s : List Char) (w h : Nat) :
    (decode s w h).isSome :=
  decode_isSome s w h

/-- C3 counterexample: on the converted pixel buffer `[0, 10]` (2×1) the
code thresholds at the upper middle element `10`, producing `[false, false]`,
while the spec's standard median `5` would produce `[false, true]`. -/
theorem claim_c3_median_counterexample :
    medianHashFromPixels [0, 10] 2 1 = some ⟨[false, false], 2, 1⟩ ∧
      medianHashSpecFromPixels [0, 10] 2 1 = some ⟨[false, true], 2, 1⟩ ∧
      medianHashFromPixels [0, 10] 2 1 ≠ medianHashSpecFromPixels [0, 10] 2 1 := by
  refine ⟨by decide, by decide, by decide⟩

/-- C3 amended: the `MedianHasher` threshold is the element that sorted
order places at index `⌊n/2⌋` (the upper middle element for even `n`), bit
`i` is `true` iff pixel `i` is strictly greater than it; for odd pixel
counts this agrees with the spec's standard median rule. -/
theorem claim_c3_median_amended (pixels : List Nat) (w h : Nat)
    (hne : pixels ≠ []) (hlen : pixels.length = w * h) :
    medianHashFromPixels pixels w h
        = some ⟨pixels.map (fun p =>
            decide (p > (List.insertionSort (· ≤ ·) pixels).getD
              (pixels.length / 2) 0)), w, h⟩ ∧
      (pixels.length % 2 = 1 →
        medianHashFromPixels pixels w h = medianHashSpecFromPixels pixels w h) := by
  constructor
  · match pixels, hne with
    | p0 :: t, _ =>
      simp only [medianHashFromPixels, fromBoolIter]
      rw [if_pos (by simpa using hlen)]
  · intro hodd
    match pixels, hne with
    | p0 :: t, _ =>
      have hn0 : ¬((p0 :: t).length % 2 = 0) := by omega
      simp only [medianHashFromPixels, medianHashSpecFromPixels, if_neg hn0]

theorem claim_c3_median_amended_witness :
    medianHashFromPixels [1, 2, 3] 3 1
        = some ⟨[1, 2, 3].map (fun p =>
            decide (p > (List.insertionSort (· ≤ ·) [1, 2, 3]).getD
              ([1, 2, 3].length / 2) 0)), 3, 1⟩ ∧
      ([1, 2, 3].length % 2 = 1 →
        medianHashFromPixels [1, 2, 3] 3 1
          = medianHashSpecFromPixels [1, 2, 3] 3 1) :=
  claim_c3_median_amended [1, 2, 3] 3 1 (by decide) (by decide)

set_option maxRecDepth 8000 in
/-- C6 counterexample: under Rec.601 the pixel `(R, G, B) = (8, 80, 32)`
has exact weighted sum exactly `53`, but the `f32` evaluation is
`52.999996…`, so the code's `as u8` cast yields `52` while the spec's
`round` of the weighted sum gives `53`; likewise the Rec.709 gray pixel
`(13, 13, 13)` (exact sum exactly `13`) yields `12` in the code. -/
theorem claim_c6_grayscale_counterexample :
    (grayscale ⟨1, 1, fun _ _ => (8, 80, 32, 255)⟩ ColorSpace.REC601).pix 0 0 = 52 ∧
      lumaSpec ColorSpace.REC601 8 80 32 = 53 ∧
      lumaOf ColorSpace.REC709 13 13 13 = 12 ∧
      lumaSpec ColorSpace.REC709 13 13 13 = 13 ∧
      (grayscale ⟨1, 1, fun _ _ => (8, 80, 32, 255)⟩ ColorSpace.REC601).pix 0 0
        ≠ lumaSpec ColorSpace.REC601 8 80 32 := by
  have hcode : lumaOf ColorSpace.REC601 8 80 32 = 52 := by decide
  have hspec : lumaSpec ColorSpace.REC601 8 80 32 = 53 := by
    have hf : ⌊(107 / 2 : ℚ)⌋ = 53 := by
      rw [Int.floor_eq_iff]
      norm_num
    simp only [lumaSpec, coefficients, round_eq]
    norm_num [hf]
    rfl
  have hspec709 : lumaSpec ColorSpace.REC709 13 13 13 = 13 := by
    have hf : ⌊(27 / 2 : ℚ)⌋ = 13 := by
      rw [Int.floor_eq_iff]
      norm_num
    simp only [lumaSpec, coefficients, round_eq]
    norm_num [hf]
    rfl
  refine ⟨hcode, hspec, by decide, hspec709, ?_⟩
  show lumaOf ColorSpace.REC601 8 80 32 ≠ lumaSpec ColorSpace.REC601 8 80 32
  rw [hcode, hspec]
  omega

/-- C6 amended: grayscale conversion preserves the image dimensions, and
each output pixel is the IEEE-754 binary32 evaluation of
`c_r*R + c_g*G + c_b*B` (binary32 coefficient literals, binary32 products,
left-to-right binary32 sums) truncated toward zero and saturated at 255 by
the `as u8` cast — not the rounding of the exact weighted sum. -/
theorem claim_c6_grayscale_amended (img : RgbaImage) (space : ColorSpace) :
    (grayscale img space).width = img.width ∧
      (grayscale img space).height = img.height ∧
      ∀ x y r g b a, img.pix x y = (r, g, b, a) →
        (grayscale img space).pix x y
          = min 255 ((f32Add (f32Add (f32Mul (coeffF32 space).1 (r * 2 ^ 149))
              (f32Mul (coeffF32 space).2.1 (g * 2 ^ 149)))
              (f32Mul (coeffF32 space).2.2 (b * 2 ^ 149))) / 2 ^ 149) := by
  refine ⟨rfl, rfl, ?_⟩
  intro x y r g b a hp
  show lumaOf space (img.pix x y).1 (img.pix x y).2.1 (img.pix x y).2.2.1 = _
  rw [hp]
  rfl

theorem claim_c6_grayscale_amended_witness :
    (grayscale ⟨2, 3, fun _ _ => (1, 2, 3, 4)⟩ ColorSpace.REC709).pix 0 0
      = min 255 ((f32Add (f32Add
          (f32Mul (coeffF32 ColorSpace.REC709).1 (1 * 2 ^ 149))
          (f32Mul (coeffF32 ColorSpace.REC709).2.1 (2 * 2 ^ 149)))
          (f32Mul (coeffF32 ColorSpace.REC709).2.2 (3 * 2 ^ 149))) / 2 ^ 149) :=
  (claim_c6_grayscale_amended ⟨2, 3, fun _ _ => (1, 2, 3, 4)⟩
    ColorSpace.REC709).2.2 0 0 1 2 3 4 rfl

theorem chunksList_exact (n k : Nat) (hn : n ≠ 0) (l : List α)
    (hl : l.length = n * k) :
    chunksList n l = (List.range k).map (fun i => (l.drop (n * i)).take n) := by
  induction k generalizing l with
  | zero =>
    have : l = [] := List.eq_nil_of_length_eq_zero (by omega)
    subst this
    rfl
  | succ k ih =>
    have hne : l ≠ [] := by
      intro h
      rw [h] at hl
      simp only [List.length_nil] at hl
      rcases Nat.mul_eq_zero.mp hl.symm with h0 | h0
      · exact hn h0
      · omega
    have hdrop : (l.drop n).length = n * k := by
      rw [List.length_drop, hl, Nat.mul_succ, Nat.add_sub_cancel]
    rw [chunksList_cons n hn l hne, List.range_succ_eq_map, List.map_cons]
    congr 1
    rw [ih (l.drop n) hdrop, List.map_map]
    apply List.map_congr_left
    intro i _
    simp only [Function.comp_apply, List.drop_drop]
    congr 2
    rw [Nat.mul_succ]
    omega

/-- The `windows(2)` comparison of one row, expressed positionally. -/
theorem row_pairs_eq (w : Nat) (row : List Nat) (hw : row.length = w + 1) :
    (row.zip (row.drop 1)).map (fun p => decide (p.1 < p.2))
      = (List.range w).map (fun j =>
          decide (row.getD j 0 < row.getD (j + 1) 0)) := by
  induction w generalizing row with
  | zero =>
    match row, hw with
    | [a], _ => rfl
  | succ w ih =>
    match row, hw with
    | a :: b :: t, hw =>
      have ht : (b :: t).length = w + 1 := by
        simpa using hw
      have hzip : ((a :: b :: t).zip ((a :: b :: t).drop 1)).map
            (fun p => decide (p.1 < p.2))
          = decide (a < b) :: ((b :: t).zip ((b :: t).drop 1)).map
            (fun p => decide (p.1 < p.2)) := rfl
      rw [hzip, List.range_succ_eq_map, List.map_cons]
      congr 1
      rw [ih (b :: t) ht, List.map_map]
      apply List.map_congr_left
      intro j _
      simp [List.getD_cons_succ]

/-- C7: the `DifferenceHasher` bit derivation — the converted
`(width+1) × height` pixel buffer yields exactly `width*height` bits in
row-major order, the bit at row `i`, column `j` being
`pixel[i][j] < pixel[i][j+1]`. -/
theorem claim_c7_difference (pixels : List Nat) (w h : Nat)
    (hlen : pixels.length = (w + 1) * h) :
    differenceHashFromPixels pixels w h
        = some ⟨differenceBitsSpec pixels w h, w, h⟩ ∧
      (differenceBitsSpec pixels w h).length = w * h := by
  have hlen2 : (differenceBitsSpec pixels w h).length = w * h := by
    unfold differenceBitsSpec
    rw [List.length_flatMap]
    simp only [Function.comp_def, List.length_map, List.length_range]
    rw [List.map_const', List.sum_replicate, smul_eq_mul, List.length_range,
      Nat.mul_comm]
  have hbits : (chunksList (w + 1) pixels).flatMap
        (fun row => (row.zip (row.drop 1)).map (fun p => decide (p.1 < p.2)))
      = differenceBitsSpec pixels w h := by
    rw [chunksList_exact (w + 1) h (by omega) pixels hlen, List.flatMap_map]
    unfold differenceBitsSpec
    apply List.flatMap_congr
    intro i hi
    have hiw : i < h := List.mem_range.mp hi
    have hrowlen : ((pixels.drop ((w + 1) * i)).take (w + 1)).length = w + 1 := by
      rw [List.length_take, List.length_drop, hlen]
      have : (w + 1) * i + (w + 1) ≤ (w + 1) * h := by
        calc (w + 1) * i + (w + 1) = (w + 1) * (i + 1) := by ring
        _ ≤ (w + 1) * h := Nat.mul_le_mul_left _ (by omega)
      omega
    rw [row_pairs_eq w _ hrowlen]
    apply List.map_congr_left
    intro j hj
    have hjw : j < w := List.mem_range.mp hj
    have hget : ∀ m, m < w + 1 →
        ((pixels.drop ((w + 1) * i)).take (w + 1)).getD m 0
          = pixels.getD (i * (w + 1) + m) 0 := by
      intro m hm
      rw [show i * (w + 1) + m = (w + 1) * i + m by ring]
      simp [List.getD_eq_getElem?_getD, List.getElem?_take, hm,
        List.getElem?_drop]
    rw [hget j (by omega), hget (j + 1) (by omega)]
    rw [show i * (w + 1) + j + 1 = i * (w + 1) + (j + 1) by ring]
  refine ⟨?_, hlen2⟩
  simp only [differenceHashFromPixels]
  rw [hbits, fromBoolIter, if_pos hlen2]

theorem claim_c7_difference_witness :
    differenceHashFromPixels [1, 2, 0, 5, 4, 6] 2 2
        = some ⟨differenceBitsSpec [1, 2, 0, 5, 4, 6] 2 2, 2, 2⟩ ∧
      (differenceBitsSpec [1, 2, 0, 5, 4, 6] 2 2).length = 2 * 2 :=
  claim_c7_difference [1, 2, 0, 5, 4, 6] 2 2 (by decide)

theorem dct2_length (x : List ℝ) : (dct2 x).length = x.length := by
  by_cases hx : x.isEmpty
  · have : x = [] := List.isEmpty_iff.mp hx
    subst this
    rfl
  · simp only [dct2, hx, Bool.false_eq_true, if_false]
    rw [List.length_map, List.length_range]

theorem dct2_getD (x : List ℝ) (k : Nat) (hk : k < x.length) :
    (dct2 x).getD k 0
      = 2 * ∑ i ∈ Finset.range x.length,
          x.getD i 0 * Real.cos (Real.pi * k * (2 * i + 1) / (2 * x.length)) := by
  have hne : x.isEmpty = false := by
    cases x
    · simp at hk
    · rfl
  simp only [dct2, hne, Bool.false_eq_true, if_false]
  rw [List.getD_eq_getElem?_getD, List.getElem?_map, List.getElem?_range hk]
  rfl

theorem cos38 : Real.cos (Real.pi * 3 / 8) = Real.sqrt (2 - Real.sqrt 2) / 2 := by
  rw [show Real.pi * 3 / 8 = Real.pi / 2 - Real.pi / 8 by ring,
    Real.cos_pi_div_two_sub, Real.sin_pi_div_eight]

theorem cos58 : Real.cos (Real.pi * 5 / 8) = -(Real.sqrt (2 - Real.sqrt 2) / 2) := by
  rw [show Real.pi * 5 / 8 = Real.pi - Real.pi * 3 / 8 by ring,
    Real.cos_pi_sub, cos38]

theorem dct2_val1 : (dct2 [(1:ℝ), 2, 3, 4]).getD 1 0
    = -3 * Real.sqrt (2 + Real.sqrt 2) - Real.sqrt (2 - Real.sqrt 2) := by
  rw [dct2_getD _ 1 (by norm_num)]
  show 2 * ∑ i ∈ Finset.range 4, _ = _
  rw [Finset.sum_range_succ, Finset.sum_range_succ, Finset.sum_range_succ,
    Finset.sum_range_succ, Finset.sum_range_zero]
  norm_num [List.getD]
  have c78 : Real.cos (Real.pi * 7 / 8) = -(Real.sqrt (2 + Real.sqrt 2) / 2) := by
    rw [show Real.pi * 7 / 8 = Real.pi - Real.pi / 8 by ring,
      Real.cos_pi_sub, Real.cos_pi_div_eight]
  rw [cos38, cos58, c78]
  ring

theorem dct2_val0 : (dct2 [(1:ℝ), 2, 3, 4]).getD 0 0 = 20 := by
  rw [dct2_getD _ 0 (by norm_num)]
  show 2 * ∑ i ∈ Finset.range 4, _ = _
  rw [Finset.sum_range_succ, Finset.sum_range_succ, Finset.sum_range_succ,
    Finset.sum_range_succ, Finset.sum_range_zero]
  norm_num [List.getD]

theorem dct2_val2 : (dct2 [(1:ℝ), 2, 3, 4]).getD 2 0 = 0 := by
  rw [dct2_getD _ 2 (by norm_num)]
  show 2 * ∑ i ∈ Finset.range 4, _ = _
  rw [Finset.sum_range_succ, Finset.sum_range_succ, Finset.sum_range_succ,
    Finset.sum_range_succ, Finset.sum_range_zero]
  norm_num [List.getD]
  have c04 : Real.cos (Real.pi * 2 / 8) = Real.sqrt 2 / 2 := by
    rw [show Real.pi * 2 / 8 = Real.pi / 4 by ring, Real.cos_pi_div_four]
  have c34 : Real.cos (Real.pi * 2 * 3 / 8) = -(Real.sqrt 2 / 2) := by
    rw [show Real.pi * 2 * 3 / 8 = Real.pi - Real.pi / 4 by ring,
      Real.cos_pi_sub, Real.cos_pi_div_four]
  have c54 : Real.cos (Real.pi * 2 * 5 / 8) = -(Real.sqrt 2 / 2) := by
    rw [show Real.pi * 2 * 5 / 8 = Real.pi / 4 + Real.pi by ring,
      Real.cos_add_pi, Real.cos_pi_div_four]
  have c74 : Real.cos (Real.pi * 2 * 7 / 8) = Real.sqrt 2 / 2 := by
    rw [show Real.pi * 2 * 7 / 8 = 2 * Real.pi - Real.pi / 4 by ring,
      Real.cos_two_pi_sub, Real.cos_pi_div_four]
  rw [c04, c34, c54, c74]
  ring

theorem dct2_val3 : (dct2 [(1:ℝ), 2, 3, 4]).getD 3 0
    = Real.sqrt (2 + Real.sqrt 2) - 3 * Real.sqrt (2 - Real.sqrt 2) := by
  rw [dct2_getD _ 3 (by norm_num)]
  show 2 * ∑ i ∈ Finset.range 4, _ = _
  rw [Finset.sum_range_succ, Finset.sum_range_succ, Finset.sum_range_succ,
    Finset.sum_range_succ, Finset.sum_range_zero]
  norm_num [List.getD]
  have c98 : Real.cos (Real.pi * 3 * 3 / 8) = -(Real.sqrt (2 + Real.sqrt 2) / 2) := by
    rw [show Real.pi * 3 * 3 / 8 = Real.pi / 8 + Real.pi by ring,
      Real.cos_add_pi, Real.cos_pi_div_eight]
  have c158 : Real.cos (Real.pi * 3 * 5 / 8) = Real.sqrt (2 + Real.sqrt 2) / 2 := by
    rw [show Real.pi * 3 * 5 / 8 = 2 * Real.pi - Real.pi / 8 by ring,
      Real.cos_two_pi_sub, Real.cos_pi_div_eight]
  have c218 : Real.cos (Real.pi * 3 * 7 / 8) = -(Real.sqrt (2 - Real.sqrt 2) / 2) := by
    rw [show Real.pi * 3 * 7 / 8 = Real.pi * 5 / 8 + 2 * Real.pi by ring,
      Real.cos_add_two_pi, cos58]
  rw [cos38, c98, c158, c218]
  ring

theorem sqrt_two_bounds :
    1.4142135623730950 < Real.sqrt 2 ∧ Real.sqrt 2 < 1.4142135623730951 := by
  constructor
  · exact (Real.lt_sqrt (by norm_num)).mpr (by norm_num)
  · exact (Real.sqrt_lt' (by norm_num)).mpr (by norm_num)

theorem sqrt_two_add_bounds :
    1.84775906502257 < Real.sqrt (2 + Real.sqrt 2) ∧
      Real.sqrt (2 + Real.sqrt 2) < 1.84775906502258 := by
  obtain ⟨h2l, h2u⟩ := sqrt_two_bounds
  constructor
  · apply (Real.lt_sqrt (by norm_num)).mpr
    have : (1.84775906502257 : ℝ) ^ 2 < 2 + 1.4142135623730950 := by norm_num
    linarith
  · apply (Real.sqrt_lt' (by norm_num)).mpr
    have : (2 : ℝ) + 1.4142135623730951 < 1.84775906502258 ^ 2 := by norm_num
    linarith

theorem sqrt_two_sub_bounds :
    0.76536686473017 < Real.sqrt (2 - Real.sqrt 2) ∧
      Real.sqrt (2 - Real.sqrt 2) < 0.76536686473018 := by
  obtain ⟨h2l, h2u⟩ := sqrt_two_bounds
  constructor
  · apply (Real.lt_sqrt (by norm_num)).mpr
    have : (0.76536686473017 : ℝ) ^ 2 < 2 - 1.4142135623730951 := by norm_num
    linarith
  · apply (Real.sqrt_lt' (by norm_num)).mpr
    have : (2 : ℝ) - 1.4142135623730950 < 0.76536686473018 ^ 2 := by norm_num
    linarith


/-- C9: the 1D DCT-II contract — `dct2` preserves length, equals
`X[k] = 2 * Σ x[i] * cos(π k (2i+1) / (2n))` with no orthonormal rescaling,
returns `[]` on empty input, and on `[1,2,3,4]` matches the reference vector
`[20, -6.3086…, ≈0, -0.4483…]` within `1e-9`. -/
theorem claim_c9_dct2 :
    (∀ x : List ℝ, (dct2 x).length = x.length) ∧
      (∀ (x : List ℝ) (k : Nat), k < x.length →
        (dct2 x).getD k 0
          = 2 * ∑ i ∈ Finset.range x.length,
              x.getD i 0 * Real.cos (Real.pi * k * (2 * i + 1) / (2 * x.length))) ∧
      dct2 [] = [] ∧
      |(dct2 [(1:ℝ), 2, 3, 4]).getD 0 0 - 20| < 1e-9 ∧
      |(dct2 [(1:ℝ), 2, 3, 4]).getD 1 0 - (-6.308644059797899)| < 1e-9 ∧
      |(dct2 [(1:ℝ), 2, 3, 4]).getD 2 0 - (-1.7763568394002505e-15)| < 1e-9 ∧
      |(dct2 [(1:ℝ), 2, 3, 4]).getD 3 0 - (-0.44834152916796777)| < 1e-9 := by
  refine ⟨dct2_length, dct2_getD, rfl, ?_, ?_, ?_, ?_⟩
  · rw [dct2_val0]
    norm_num
  · rw [dct2_val1, abs_lt]
    obtain ⟨h1l, h1u⟩ := sqrt_two_add_bounds
    obtain ⟨h2l, h2u⟩ := sqrt_two_sub_bounds
    constructor <;> nlinarith
  · rw [dct2_val2, abs_lt]
    constructor <;> norm_num
  · rw [dct2_val3, abs_lt]
    obtain ⟨h1l, h1u⟩ := sqrt_two_add_bounds
    obtain ⟨h2l, h2u⟩ := sqrt_two_sub_bounds
    constructor <;> nlinarith

theorem claim_c9_dct2_witness :
    (dct2 [(5:ℝ), 7]).getD 1 0
      = 2 * ∑ i ∈ Finset.range ([(5:ℝ), 7]).length,
          ([(5:ℝ), 7]).getD i 0
            * Real.cos (Real.pi * ((1 : Nat) : ℝ)
                * (2 * i + 1) / (2 * ([(5:ℝ), 7]).length)) :=
  claim_c9_dct2.2.1 [(5:ℝ), 7] 1 (by norm_num)

end ImgHash
